import Mathlib

/-!
Shallow embedding of `pkg/objcache/objcache.go` (package objcache): an
in-memory object cache with a two-phase write protocol, freshness-checked
reads, explicit deletes and a periodic expiry sweep (gc).

Modelling choices:
* `time.Time` and `time.Duration` are modelled as `Int` (nanoseconds);
  `t1.Before t2` is `t1 < t2`, `t1.Sub t2` is `t1 - t2`.
* The Go `map[string]*buffer` is modelled as an association list with
  Go-map semantics (lookup, insert-or-replace, delete); reachable states
  keep keys pairwise distinct.
* `currentSize` is a Go `uint64`; its updates use wrap-around arithmetic
  modulo `2 ^ 64` (`uadd` / `usub`).
* The eviction callback `OnEviction` is not embedded as a function value;
  instead every operation additionally returns the list of keys that the
  code passes to `OnEviction` (in invocation order) after releasing the
  lock, for the case where the callback is set.  When it is unset the Go
  code performs no invocation at all (`if c.OnEviction != nil`).
* `bytebufferpool` is an external collaborator; a pooled buffer is
  modelled by its logical content, a `List UInt8` (a fresh buffer is
  empty, and releases to the pool have no observable effect on the cache).
-/

namespace Objcache

/-- Width of Go's `uint64`. -/
def U64 : Nat := 18446744073709551616

/-- Go `uint64` addition (wrap-around). -/
def uadd (a b : Nat) : Nat := (a + b) % U64

/-- Go `uint64` subtraction (wrap-around). -/
def usub (a b : Nat) : Nat := (a + (U64 - b % U64)) % U64

/-- The error values of the package: `ErrKeyNotFoundInCache`,
`ErrCacheFull`, `ErrExcessData` from the `var` block, and the ad-hoc
`errors.New("invalid maximum cache size")` returned by `New`. -/
inductive CacheErr where
  | keyNotFoundInCache
  | cacheFull
  | excessData
  | invalidMaxSize
  deriving DecidableEq, Repr

/-- `buffer`: the in-memory cache of a single entry — the data and the
last-accessed time. -/
structure Buffer where
  buf : List UInt8
  lastAccessed : Int
  deriving DecidableEq, Repr

/-- `defaultBufferRatio = uint64(10)`. -/
def defaultBufferRatio : Nat := 10

/-- `Cache` state: everything except the mutex / once / stopGC channel
(pure concurrency plumbing with no data content). -/
structure Cache where
  maxSize : Nat
  maxCacheEntrySize : Nat
  currentSize : Nat
  totalEvicted : Nat
  entries : List (String × Buffer)
  expiry : Int
  deriving DecidableEq, Repr

/-- Go-map lookup `c.entries[key]`. -/
def lookupEntry (es : List (String × Buffer)) (key : String) : Option Buffer :=
  match es with
  | [] => none
  | (k, b) :: rest => if k = key then some b else lookupEntry rest key

/-- Go-map insert-or-replace `c.entries[key] = b`. -/
def insertEntry (es : List (String × Buffer)) (key : String) (b : Buffer) :
    List (String × Buffer) :=
  match es with
  | [] => [(key, b)]
  | (k, b0) :: rest =>
      if k = key then (k, b) :: rest else (k, b0) :: insertEntry rest key b

/-- Go-map `delete(c.entries, key)`. -/
def removeEntry (es : List (String × Buffer)) (key : String) :
    List (String × Buffer) :=
  match es with
  | [] => []
  | (k, b) :: rest =>
      if k = key then removeEntry rest key else (k, b) :: removeEntry rest key

/-- Refresh of `b.lastAccessed` for the entry holding `key` (the Go code
mutates the entry through its pointer in the map). -/
def touchEntry (es : List (String × Buffer)) (key : String) (now : Int) :
    List (String × Buffer) :=
  match es with
  | [] => []
  | (k, b) :: rest =>
      if k = key then (k, { b with lastAccessed := now }) :: touchEntry rest key now
      else (k, b) :: touchEntry rest key now

/-- `New(maxSize, expiry)`: fails when `maxSize == 0`, otherwise derives
`maxCacheEntrySize = maxSize / defaultBufferRatio`, falling back to
`maxSize` when that division yields zero, and returns a fresh cache.
(The janitor start is concurrency plumbing and carries no state.) -/
def New (maxSize : Nat) (expiry : Int) : Except CacheErr Cache :=
  if maxSize = 0 then
    .error .invalidMaxSize
  else
    let maxCacheEntrySize :=
      if maxSize / defaultBufferRatio = 0 then maxSize
      else maxSize / defaultBufferRatio
    .ok { maxSize := maxSize
          maxCacheEntrySize := maxCacheEntrySize
          currentSize := 0
          totalEvicted := 0
          entries := []
          expiry := expiry }

/-- The private `delete` method: if the key is present, remove it from the
map, subtract its length from `currentSize` (uint64 arithmetic) and
increment `totalEvicted`; otherwise do nothing.  (The buffer reset /
return to the pool is external and unobservable here.) -/
def Cache.delete (c : Cache) (key : String) : Cache :=
  match lookupEntry c.entries key with
  | none => c
  | some b =>
      { c with
        entries := removeEntry c.entries key
        currentSize := usub c.currentSize b.buf.length
        totalEvicted := c.totalEvicted + 1 }

/-- Public `Delete`: under the lock runs the private `delete`, then after
releasing the lock invokes `OnEviction(key)` whenever the callback is set
— unconditionally, whether or not an entry was present. -/
def Cache.Delete (c : Cache) (key : String) : Cache × List String :=
  (c.delete key, [key])

/-- `Open(key, atime)` at current time `now`: miss when absent; when the
entry's `lastAccessed` is strictly before `atime`, delete it and report a
miss; otherwise refresh `lastAccessed` to `now` and return the bytes.
The third component is the eviction-callback key list (always empty:
`Open` never invokes `OnEviction`). -/
def Cache.Open (c : Cache) (key : String) (atime now : Int) :
    Except CacheErr (List UInt8) × Cache × List String :=
  match lookupEntry c.entries key with
  | none => (.error .keyNotFoundInCache, c, [])
  | some b =>
      if b.lastAccessed < atime then
        (.error .keyNotFoundInCache, c.delete key, [])
      else
        (.ok b.buf, { c with entries := touchEntry c.entries key now }, [])

/-- The `onClose` closure built by `Create(key)`, applied at close time
`now` to the accumulated buffer content `data`: a zero-length buffer is a
silent no-op; a buffer longer than `maxCacheEntrySize` is rejected with
`ErrCacheFull`; otherwise the entry is stored (insert-or-replace) with
`lastAccessed = now` and `currentSize` grows by the length (uint64
arithmetic — the replaced entry's length, if any, is not subtracted). -/
def Cache.onClose (c : Cache) (key : String) (data : List UInt8) (now : Int) :
    Except CacheErr Unit × Cache :=
  if data.length = 0 then
    (.ok (), c)
  else if c.maxCacheEntrySize < data.length then
    (.error .cacheFull, c)
  else
    (.ok (), { c with
                entries := insertEntry c.entries key { buf := data, lastAccessed := now }
                currentSize := uadd c.currentSize data.length })

/-- Modelled from the spec: the repository's `writeCloser` type (it is
referenced by `Create` but its file is not part of the given source).
Per the spec (§4.2, §6) the sink wraps the pooled buffer: `write(p)`
appends `p` to the private buffer and returns `(len(p), nil)` — streaming
is unconstrained and never fails — and `finalize()` runs the `onClose`
commit exactly once. -/
structure WriteCloserModel where
  data : List UInt8
  deriving DecidableEq, Repr

/-- `Create(key)` acquires a fresh (empty) pooled buffer and returns the
write sink; no cache state changes until close. -/
def Cache.Create (_c : Cache) : WriteCloserModel := { data := [] }

/-- Modelled from the spec: a write on the sink appends the bytes and
returns the byte count and no error. -/
def WriteCloserModel.write (w : WriteCloserModel) (p : List UInt8) :
    WriteCloserModel × Nat × Option CacheErr :=
  ({ data := w.data ++ p }, p.length, none)

/-- Modelled from the spec: closing the sink created by `Create key` runs
the captured `onClose` on the accumulated bytes. -/
def WriteCloserModel.close (w : WriteCloserModel) (c : Cache) (key : String)
    (now : Int) : Except CacheErr Unit × Cache :=
  c.onClose key w.data now

/-- Whether an entry is judged expired by the sweep:
`c.expiry > 0 && time.Now().Sub(v.lastAccessed) > c.expiry`. -/
def expiredAt (expiry now la : Int) : Bool :=
  decide (0 < expiry) && decide (expiry < now - la)

/-- The loop body of `gc`: iterate the (snapshot of the) entries, deleting
each expired one and collecting its key. -/
def gcLoop (now : Int) : List (String × Buffer) → Cache → Cache × List String
  | [], c => (c, [])
  | (k, v) :: rest, c =>
      if expiredAt c.expiry now v.lastAccessed then
        let r := gcLoop now rest (c.delete k)
        (r.1, k :: r.2)
      else
        gcLoop now rest c

/-- `gc()` at time `now`: under the lock sweep every entry, deleting the
expired ones; after releasing the lock invoke `OnEviction` once per
evicted key, in sweep order, whenever the callback is set.  The second
component is that callback key list. -/
def Cache.gc (c : Cache) (now : Int) : Cache × List String :=
  gcLoop now c.entries c

/-- Sum of the byte lengths of the stored entries. -/
def sumLens (es : List (String × Buffer)) : Nat :=
  (es.map (fun kv => kv.2.buf.length)).sum

/-- Keys of the entry mapping are pairwise distinct (true of every Go map
and of every reachable state of the model). -/
abbrev NoDupKeys (es : List (String × Buffer)) : Prop :=
  (es.map Prod.fst).Nodup

/-- The state invariant for size accounting: distinct keys, and
`currentSize` is the stored total reduced modulo the uint64 width. -/
def Inv (c : Cache) : Prop :=
  NoDupKeys c.entries ∧ c.currentSize = sumLens c.entries % U64

/-- One public operation of the cache, restricted to commits that target a
key with no entry currently stored (the no-replace trace condition). -/
inductive Step : Cache → Cache → Prop where
  | commit (c : Cache) (k : String) (d : List UInt8) (now : Int)
      (habs : lookupEntry c.entries k = none) : Step c (c.onClose k d now).2
  | del (c : Cache) (k : String) : Step c (c.Delete k).1
  | openRead (c : Cache) (k : String) (atime now : Int) :
      Step c (c.Open k atime now).2.1
  | sweep (c : Cache) (now : Int) : Step c (c.gc now).1

/-- A sample empty cache (the result of `New 100 0`), used to instantiate
theorems at concrete inputs. -/
def sampleEmpty : Cache :=
  { maxSize := 100, maxCacheEntrySize := 10, currentSize := 0,
    totalEvicted := 0, entries := [], expiry := 0 }

/-- A sample cache holding one three-byte entry under key `a`, last
accessed at time 50. -/
def sampleOne : Cache :=
  { maxSize := 100, maxCacheEntrySize := 10, currentSize := 3,
    totalEvicted := 0,
    entries := [("a", { buf := [1, 2, 3], lastAccessed := 50 })],
    expiry := 0 }

/-- A sample cache with expiry 20 holding a stale entry (idle 90 at time
100) and a fresh one (idle 10 at time 100). -/
def sampleExp : Cache :=
  { maxSize := 100, maxCacheEntrySize := 10, currentSize := 5,
    totalEvicted := 0,
    entries := [("old", { buf := [1, 2], lastAccessed := 10 }),
                ("live", { buf := [3, 4, 5], lastAccessed := 90 })],
    expiry := 20 }

lemma lookupEntry_cons (k0 : String) (b0 : Buffer) (tl : List (String × Buffer))
    (key : String) :
    lookupEntry ((k0, b0) :: tl) key =
      if k0 = key then some b0 else lookupEntry tl key := rfl

lemma removeEntry_cons (k0 : String) (b0 : Buffer) (tl : List (String × Buffer))
    (key : String) :
    removeEntry ((k0, b0) :: tl) key =
      if k0 = key then removeEntry tl key
      else (k0, b0) :: removeEntry tl key := rfl

lemma touchEntry_cons (k0 : String) (b0 : Buffer) (tl : List (String × Buffer))
    (key : String) (now : Int) :
    touchEntry ((k0, b0) :: tl) key now =
      if k0 = key then (k0, { b0 with lastAccessed := now }) :: touchEntry tl key now
      else (k0, b0) :: touchEntry tl key now := rfl

lemma sumLens_cons (k0 : String) (b0 : Buffer) (tl : List (String × Buffer)) :
    sumLens ((k0, b0) :: tl) = b0.buf.length + sumLens tl := by
  simp [sumLens]

lemma lookup_insert_self (es : List (String × Buffer)) (k : String) (b : Buffer) :
    lookupEntry (insertEntry es k b) k = some b := by
  induction es with
  | nil => simp [insertEntry, lookupEntry]
  | cons hd tl ih =>
    obtain ⟨k0, b0⟩ := hd
    by_cases h : k0 = k
    · simp [insertEntry, h, lookupEntry]
    · simp [insertEntry, h, lookupEntry, ih]

lemma insert_of_lookup_none (es : List (String × Buffer)) (k : String) (b : Buffer)
    (h : lookupEntry es k = none) : insertEntry es k b = es ++ [(k, b)] := by
  induction es with
  | nil => simp [insertEntry]
  | cons hd tl ih =>
    obtain ⟨k0, b0⟩ := hd
    by_cases hk : k0 = k
    · simp [lookupEntry, hk] at h
    · simp [lookupEntry, hk] at h
      simp [insertEntry, hk, ih h]

lemma lookup_eq_none_iff (es : List (String × Buffer)) (k : String) :
    lookupEntry es k = none ↔ k ∉ es.map Prod.fst := by
  induction es with
  | nil => simp [lookupEntry]
  | cons hd tl ih =>
    obtain ⟨k0, b0⟩ := hd
    by_cases h : k0 = k
    · simp [lookupEntry, h]
    · simp [lookupEntry, h, ih]
      intro hk
      exact fun hh => h hh.symm

lemma lookup_mem (es : List (String × Buffer)) (k : String) (b : Buffer)
    (h : lookupEntry es k = some b) : (k, b) ∈ es := by
  induction es with
  | nil => simp [lookupEntry] at h
  | cons hd tl ih =>
    obtain ⟨k0, b0⟩ := hd
    by_cases hk : k0 = k
    · simp [lookupEntry, hk] at h
      simp [hk, h]
    · simp [lookupEntry, hk] at h
      simp [ih h]

lemma mem_lookup (es : List (String × Buffer)) (k : String) (b : Buffer)
    (hnd : NoDupKeys es) (h : (k, b) ∈ es) : lookupEntry es k = some b := by
  induction es with
  | nil => simp at h
  | cons hd tl ih =>
    obtain ⟨k0, b0⟩ := hd
    have hnd' : k0 ∉ tl.map Prod.fst ∧ NoDupKeys tl := by
      simpa [NoDupKeys, List.nodup_cons] using hnd
    rcases List.mem_cons.mp h with heq | htl
    · obtain ⟨h1, h2⟩ := Prod.mk.injEq .. ▸ heq.symm
      simp [lookupEntry, h1.symm, h2]
    · have hk : k0 ≠ k := by
        intro hk0
        exact hnd'.1 (hk0 ▸ (List.mem_map_of_mem Prod.fst htl))
      simp [lookupEntry, hk, ih hnd'.2 htl]

lemma lookup_remove_self (es : List (String × Buffer)) (k : String) :
    lookupEntry (removeEntry es k) k = none := by
  induction es with
  | nil => simp [removeEntry, lookupEntry]
  | cons hd tl ih =>
    obtain ⟨k0, b0⟩ := hd
    by_cases h : k0 = k
    · simpa [removeEntry, h] using ih
    · simpa [removeEntry, h, lookupEntry] using ih

lemma lookup_remove_ne (es : List (String × Buffer)) (k k2 : String) (h : k2 ≠ k) :
    lookupEntry (removeEntry es k) k2 = lookupEntry es k2 := by
  induction es with
  | nil => simp [removeEntry]
  | cons hd tl ih =>
    obtain ⟨k0, b0⟩ := hd
    rw [removeEntry_cons, lookupEntry_cons]
    by_cases hk : k0 = k
    · have hne : k0 ≠ k2 := fun hh => h (hh ▸ hk)
      rw [if_pos hk, if_neg hne]
      exact ih
    · rw [if_neg hk, lookupEntry_cons]
      by_cases hk2 : k0 = k2
      · rw [if_pos hk2, if_pos hk2]
      · rw [if_neg hk2, if_neg hk2]
        exact ih

lemma remove_of_not_mem (es : List (String × Buffer)) (k : String)
    (h : k ∉ es.map Prod.fst) : removeEntry es k = es := by
  induction es with
  | nil => simp [removeEntry]
  | cons hd tl ih =>
    obtain ⟨k0, b0⟩ := hd
    simp at h
    have hk : k0 ≠ k := fun hh => h.1 hh.symm
    simp [removeEntry, hk, ih (by simpa using h.2)]

lemma remove_keys_sublist (es : List (String × Buffer)) (k : String) :
    ((removeEntry es k).map Prod.fst).Sublist (es.map Prod.fst) := by
  induction es with
  | nil => simp [removeEntry]
  | cons hd tl ih =>
    obtain ⟨k0, b0⟩ := hd
    by_cases h : k0 = k
    · simpa [removeEntry, h] using ih.cons k0
    · simpa [removeEntry, h] using ih.cons₂ k0

lemma sumLens_remove (es : List (String × Buffer)) (k : String) (b : Buffer)
    (hnd : NoDupKeys es) (h : lookupEntry es k = some b) :
    sumLens es = sumLens (removeEntry es k) + b.buf.length := by
  induction es with
  | nil => simp [lookupEntry] at h
  | cons hd tl ih =>
    obtain ⟨k0, b0⟩ := hd
    have hnd' : k0 ∉ tl.map Prod.fst ∧ NoDupKeys tl := by
      simpa [NoDupKeys, List.nodup_cons] using hnd
    by_cases hk : k0 = k
    · simp [lookupEntry, hk] at h
      have hrm : removeEntry tl k = tl := remove_of_not_mem tl k (hk ▸ hnd'.1)
      simp [removeEntry, hk, sumLens, hrm, h]
      omega
    · simp [lookupEntry, hk] at h
      have hih := ih hnd'.2 h
      simp [removeEntry, hk, sumLens] at hih ⊢
      omega

lemma touch_keys (es : List (String × Buffer)) (k : String) (now : Int) :
    (touchEntry es k now).map Prod.fst = es.map Prod.fst := by
  induction es with
  | nil => simp [touchEntry]
  | cons hd tl ih =>
    obtain ⟨k0, b0⟩ := hd
    rw [touchEntry_cons]
    by_cases h : k0 = k
    · rw [if_pos h]
      simp only [List.map_cons]
      rw [ih]
    · rw [if_neg h]
      simp only [List.map_cons]
      rw [ih]

lemma sumLens_touch (es : List (String × Buffer)) (k : String) (now : Int) :
    sumLens (touchEntry es k now) = sumLens es := by
  induction es with
  | nil => simp [touchEntry]
  | cons hd tl ih =>
    obtain ⟨k0, b0⟩ := hd
    rw [touchEntry_cons]
    by_cases h : k0 = k
    · rw [if_pos h, sumLens_cons, sumLens_cons, ih]
    · rw [if_neg h, sumLens_cons, sumLens_cons, ih]

lemma lookup_touch_self (es : List (String × Buffer)) (k : String) (now : Int)
    (b : Buffer) (h : lookupEntry es k = some b) :
    lookupEntry (touchEntry es k now) k = some { buf := b.buf, lastAccessed := now } := by
  induction es with
  | nil => simp [lookupEntry] at h
  | cons hd tl ih =>
    obtain ⟨k0, b0⟩ := hd
    rw [lookupEntry_cons] at h
    rw [touchEntry_cons]
    by_cases hk : k0 = k
    · rw [if_pos hk] at h
      injection h with h2
      subst h2
      rw [if_pos hk, lookupEntry_cons, if_pos hk]
    · rw [if_neg hk] at h
      rw [if_neg hk, lookupEntry_cons, if_neg hk]
      exact ih h

lemma uadd_mod (s d : Nat) : uadd (s % U64) d = (s + d) % U64 :=
  Nat.mod_add_mod s U64 d

lemma usub_mod_of_le (s d : Nat) (h : d ≤ s) :
    usub (s % U64) d = (s - d) % U64 := by
  simp only [usub, U64]
  omega

lemma lookup_delete_self (c : Cache) (k : String) :
    lookupEntry (c.delete k).entries k = none := by
  unfold Cache.delete
  cases hl : lookupEntry c.entries k with
  | none => simpa using hl
  | some b => simpa using lookup_remove_self c.entries k

lemma delete_noop (c : Cache) (k : String) (h : lookupEntry c.entries k = none) :
    c.delete k = c := by
  simp [Cache.delete, h]

lemma delete_of_lookup (c : Cache) (k : String) (v : Buffer)
    (h : lookupEntry c.entries k = some v) :
    c.delete k =
      { c with
        entries := removeEntry c.entries k
        currentSize := usub c.currentSize v.buf.length
        totalEvicted := c.totalEvicted + 1 } := by
  simp [Cache.delete, h]

lemma delete_expiry (c : Cache) (k : String) : (c.delete k).expiry = c.expiry := by
  unfold Cache.delete
  cases lookupEntry c.entries k <;> rfl

lemma gcLoop_cons (now : Int) (k : String) (v : Buffer)
    (tl : List (String × Buffer)) (c : Cache) :
    gcLoop now ((k, v) :: tl) c =
      if expiredAt c.expiry now v.lastAccessed then
        ((gcLoop now tl (c.delete k)).1, k :: (gcLoop now tl (c.delete k)).2)
      else gcLoop now tl c := rfl

lemma gcLoop_fold (now : Int) (l : List (String × Buffer)) (c : Cache) :
    gcLoop now l c =
      ((l.filter (fun kv => expiredAt c.expiry now kv.2.lastAccessed)).foldl
          (fun a kv => a.delete kv.1) c,
        (l.filter (fun kv => expiredAt c.expiry now kv.2.lastAccessed)).map
          Prod.fst) := by
  induction l generalizing c with
  | nil => rfl
  | cons hd tl ih =>
    obtain ⟨k, v⟩ := hd
    rw [gcLoop_cons]
    by_cases hP : expiredAt c.expiry now v.lastAccessed = true
    · rw [if_pos hP, ih (c.delete k)]
      simp only [delete_expiry, List.filter_cons]
      rw [if_pos hP]
      simp only [List.foldl_cons, List.map_cons]
    · rw [if_neg hP, ih c]
      simp only [List.filter_cons]
      rw [if_neg hP]

lemma foldl_delete_spec (ds : List (String × Buffer)) (c : Cache)
    (hsub : ∀ kv, kv ∈ ds → lookupEntry c.entries kv.1 = some kv.2)
    (hnd : (ds.map Prod.fst).Nodup) :
    ds.foldl (fun a kv => a.delete kv.1) c =
      { c with
        entries := ds.foldl (fun es kv => removeEntry es kv.1) c.entries
        currentSize := ds.foldl (fun s kv => usub s kv.2.buf.length) c.currentSize
        totalEvicted := c.totalEvicted + ds.length } := by
  induction ds generalizing c with
  | nil => rfl
  | cons hd tl ih =>
    obtain ⟨k, v⟩ := hd
    have hv : lookupEntry c.entries k = some v := hsub (k, v) (List.mem_cons_self ..)
    have hkn : k ∉ tl.map Prod.fst := (List.nodup_cons.mp (by simpa using hnd)).1
    have hndtl : (tl.map Prod.fst).Nodup := (List.nodup_cons.mp (by simpa using hnd)).2
    have hsub' : ∀ kv, kv ∈ tl →
        lookupEntry (removeEntry c.entries k) kv.1 = some kv.2 := by
      intro kv hkv
      have hne : kv.1 ≠ k := fun hh => hkn (hh ▸ List.mem_map_of_mem Prod.fst hkv)
      rw [lookup_remove_ne c.entries k kv.1 hne]
      exact hsub kv (List.mem_cons_of_mem _ hkv)
    simp only [List.foldl_cons]
    rw [delete_of_lookup c k v hv,
      ih { c with
            entries := removeEntry c.entries k
            currentSize := usub c.currentSize v.buf.length
            totalEvicted := c.totalEvicted + 1 } hsub' hndtl]
    simp only [Cache.mk.injEq, List.length_cons, true_and, and_true, eq_self_iff_true]
    omega

lemma foldl_remove_cons (ds : List (String × Buffer)) (k0 : String) (b0 : Buffer)
    (tl : List (String × Buffer)) (h : ∀ kv, kv ∈ ds → kv.1 ≠ k0) :
    ds.foldl (fun es kv => removeEntry es kv.1) ((k0, b0) :: tl) =
      (k0, b0) :: ds.foldl (fun es kv => removeEntry es kv.1) tl := by
  induction ds generalizing tl with
  | nil => rfl
  | cons d rest ih =>
    have hne : ¬ k0 = d.1 := fun hh => h d (List.mem_cons_self ..) hh.symm
    simp only [List.foldl_cons]
    rw [removeEntry_cons, if_neg hne]
    exact ih (removeEntry tl d.1) (fun kv hkv => h kv (List.mem_cons_of_mem _ hkv))

lemma foldl_remove_filter (es : List (String × Buffer)) (P : String × Buffer → Bool)
    (hnd : NoDupKeys es) :
    (es.filter P).foldl (fun a kv => removeEntry a kv.1) es =
      es.filter (fun kv => !(P kv)) := by
  induction es with
  | nil => rfl
  | cons hd tl ih =>
    obtain ⟨k0, b0⟩ := hd
    have hkn : k0 ∉ tl.map Prod.fst :=
      (List.nodup_cons.mp (by simpa [NoDupKeys] using hnd)).1
    have hndtl : NoDupKeys tl :=
      (List.nodup_cons.mp (by simpa [NoDupKeys] using hnd)).2
    have hknP : ∀ kv, kv ∈ tl.filter P → kv.1 ≠ k0 := by
      intro kv hkv hh
      exact hkn (hh ▸ List.mem_map_of_mem Prod.fst (List.mem_filter.mp hkv).1)
    by_cases hP : P (k0, b0) = true
    · rw [List.filter_cons_of_pos hP, List.filter_cons_of_neg (by simp [hP])]
      simp only [List.foldl_cons]
      rw [removeEntry_cons, if_pos rfl, remove_of_not_mem tl k0 hkn]
      exact ih hndtl
    · rw [List.filter_cons_of_neg hP, List.filter_cons_of_pos (by simp [hP]),
        foldl_remove_cons _ _ _ _ hknP, ih hndtl]

lemma gc_spec (c : Cache) (now : Int) (hnd : NoDupKeys c.entries) :
    (c.gc now).1.entries =
        c.entries.filter (fun kv => !(expiredAt c.expiry now kv.2.lastAccessed)) ∧
    (c.gc now).2 =
        (c.entries.filter
          (fun kv => expiredAt c.expiry now kv.2.lastAccessed)).map Prod.fst ∧
    (c.gc now).1.currentSize =
        (c.entries.filter (fun kv => expiredAt c.expiry now kv.2.lastAccessed)).foldl
          (fun s kv => usub s kv.2.buf.length) c.currentSize ∧
    (c.gc now).1.totalEvicted =
        c.totalEvicted +
          (c.entries.filter
            (fun kv => expiredAt c.expiry now kv.2.lastAccessed)).length ∧
    (c.gc now).1.maxSize = c.maxSize ∧
    (c.gc now).1.maxCacheEntrySize = c.maxCacheEntrySize ∧
    (c.gc now).1.expiry = c.expiry := by
  have hsub : ∀ kv,
      kv ∈ c.entries.filter (fun kv => expiredAt c.expiry now kv.2.lastAccessed) →
      lookupEntry c.entries kv.1 = some kv.2 := by
    intro kv hkv
    exact mem_lookup c.entries kv.1 kv.2 hnd (List.mem_filter.mp hkv).1
  have hndD :
      ((c.entries.filter
          (fun kv => expiredAt c.expiry now kv.2.lastAccessed)).map Prod.fst).Nodup :=
    hnd.sublist ((List.filter_sublist _).map Prod.fst)
  rw [Cache.gc, gcLoop_fold now c.entries c,
    foldl_delete_spec _ c hsub hndD]
  refine ⟨?_, rfl, rfl, rfl, rfl, rfl, rfl⟩
  exact foldl_remove_filter c.entries _ hnd

lemma open_callbacks_nil (c : Cache) (k : String) (atime now : Int) :
    (c.Open k atime now).2.2 = [] := by
  unfold Cache.Open
  cases lookupEntry c.entries k with
  | none => rfl
  | some b =>
    dsimp only
    split <;> rfl

lemma delete_inv (c : Cache) (k : String) (h : Inv c) : Inv (c.delete k) := by
  cases hl : lookupEntry c.entries k with
  | none =>
    rw [delete_noop c k hl]
    exact h
  | some b =>
    rw [delete_of_lookup c k b hl]
    obtain ⟨hnd, hsz⟩ := h
    have hrel := sumLens_remove c.entries k b hnd hl
    refine ⟨hnd.sublist (remove_keys_sublist c.entries k), ?_⟩
    show usub c.currentSize b.buf.length = sumLens (removeEntry c.entries k) % U64
    rw [hsz, usub_mod_of_le (sumLens c.entries) b.buf.length (by omega)]
    congr 1
    omega

lemma onClose_inv (c : Cache) (k : String) (d : List UInt8) (now : Int)
    (habs : lookupEntry c.entries k = none) (h : Inv c) :
    Inv (c.onClose k d now).2 := by
  unfold Cache.onClose
  by_cases h0 : d.length = 0
  · simpa [h0] using h
  · by_cases h1 : c.maxCacheEntrySize < d.length
    · simpa [h0, h1] using h
    · simp only [h0, h1, if_false, ite_false]
      obtain ⟨hnd, hsz⟩ := h
      rw [insert_of_lookup_none c.entries k _ habs]
      have hk : k ∉ c.entries.map Prod.fst := (lookup_eq_none_iff c.entries k).mp habs
      refine ⟨?_, ?_⟩
      · show ((c.entries ++ [(k, _)]).map Prod.fst).Nodup
        simp [List.nodup_append, hnd, hk]
      · show uadd c.currentSize d.length =
          sumLens (c.entries ++ [(k, { buf := d, lastAccessed := now })]) % U64
        rw [hsz, uadd_mod]
        congr 1
        simp [sumLens]

lemma open_inv (c : Cache) (k : String) (atime now : Int) (h : Inv c) :
    Inv (c.Open k atime now).2.1 := by
  unfold Cache.Open
  cases hl : lookupEntry c.entries k with
  | none => exact h
  | some b =>
    dsimp only
    by_cases hst : b.lastAccessed < atime
    · simpa [hst] using delete_inv c k h
    · simp only [hst, if_false, ite_false]
      refine ⟨?_, ?_⟩
      · show ((touchEntry c.entries k now).map Prod.fst).Nodup
        rw [touch_keys]
        exact h.1
      · show c.currentSize = sumLens (touchEntry c.entries k now) % U64
        rw [sumLens_touch]
        exact h.2

lemma gcLoop_inv (now : Int) (l : List (String × Buffer)) (c : Cache)
    (h : Inv c) : Inv (gcLoop now l c).1 := by
  induction l generalizing c with
  | nil => exact h
  | cons hd tl ih =>
    obtain ⟨k, v⟩ := hd
    rw [gcLoop_cons]
    by_cases hP : expiredAt c.expiry now v.lastAccessed = true
    · rw [if_pos hP]
      exact ih (c.delete k) (delete_inv c k h)
    · rw [if_neg hP]
      exact ih c h

lemma step_inv (c c2 : Cache) (hs : Step c c2) (h : Inv c) : Inv c2 := by
  cases hs with
  | commit k d now habs => exact onClose_inv c k d now habs h
  | del k => exact delete_inv c k h
  | openRead k atime now => exact open_inv c k atime now h
  | sweep now => exact gcLoop_inv now c.entries c h

/-- C7: `New maxSize expiry` returns an error exactly when `maxSize = 0`;
for every positive `maxSize` it succeeds, setting `maxCacheEntrySize` to
`maxSize / 10`, or to `maxSize` itself when that integer division yields
zero — which happens exactly when `maxSize < 10`. -/
theorem New_spec (m : Nat) (x : Int) :
    (m = 0 → New m x = .error .invalidMaxSize) ∧
    (0 < m →
      New m x = .ok
        { maxSize := m
          maxCacheEntrySize := if m / 10 = 0 then m else m / 10
          currentSize := 0
          totalEvicted := 0
          entries := []
          expiry := x } ∧
      (m / 10 = 0 ↔ m < 10)) := by
  constructor
  · intro hm
    simp [New, hm]
  · intro hm
    have hm0 : m ≠ 0 := by omega
    refine ⟨by simp [New, hm0, defaultBufferRatio], by omega⟩

/-- Witness for `New_spec` at `maxSize = 0`, `maxSize = 17` and
`maxSize = 7` (the under-10 fallback). -/
theorem New_spec_witness :
    New 0 2 = .error .invalidMaxSize ∧
    New 17 3 = .ok
      { maxSize := 17, maxCacheEntrySize := 1, currentSize := 0,
        totalEvicted := 0, entries := [], expiry := 3 } ∧
    New 7 3 = .ok
      { maxSize := 7, maxCacheEntrySize := 7, currentSize := 0,
        totalEvicted := 0, entries := [], expiry := 3 } :=
  ⟨(New_spec 0 2).1 rfl, ((New_spec 17 3).2 (by decide)).1,
    ((New_spec 7 3).2 (by decide)).1⟩

/-- C10: deleting a key with no entry present leaves the whole cache state
(entries, `currentSize`, `totalEvicted` and all other fields) unchanged,
both for the private `delete` and for the store-mutation half of the
public `Delete`. -/
theorem delete_absent_noop (c : Cache) (k : String)
    (h : lookupEntry c.entries k = none) :
    c.delete k = c ∧ (c.Delete k).1 = c := by
  have hd : c.delete k = c := by simp [Cache.delete, h]
  exact ⟨hd, hd⟩

/-- Witness for `delete_absent_noop` on the empty sample cache. -/
theorem delete_absent_noop_witness :
    sampleEmpty.delete "k" = sampleEmpty ∧
    (sampleEmpty.Delete "k").1 = sampleEmpty :=
  delete_absent_noop sampleEmpty "k" rfl

/-- C5: finalizing a sink created by `Create k` with zero accumulated
bytes returns no error and leaves the entire cache state unchanged; with
no prior entry under `k`, a subsequent `Open` is a miss. -/
theorem finalize_zero_bytes (c : Cache) (k : String) (now t n2 : Int)
    (h : lookupEntry c.entries k = none) :
    (c.Create).close c k now = (.ok (), c) ∧
    (c.Open k t n2).1 = .error .keyNotFoundInCache := by
  exact ⟨rfl, by simp [Cache.Open, h]⟩

/-- Witness for `finalize_zero_bytes` on the empty sample cache. -/
theorem finalize_zero_bytes_witness :
    (sampleEmpty.Create).close sampleEmpty "k" 9 = (.ok (), sampleEmpty) ∧
    (sampleEmpty.Open "k" 1 2).1 = .error .keyNotFoundInCache :=
  finalize_zero_bytes sampleEmpty "k" 9 1 2 rfl

/-- C6: finalizing a sink whose accumulated payload exceeds
`maxCacheEntrySize` returns the cache-full error and leaves the cache
state (entries and `currentSize` included) exactly unchanged. -/
theorem finalize_oversize (c : Cache) (k : String) (p : List UInt8) (now : Int)
    (h : c.maxCacheEntrySize < p.length) :
    ((c.Create).write p).1.close c k now = (.error .cacheFull, c) := by
  have hne : p.length ≠ 0 := by omega
  simp [Cache.Create, WriteCloserModel.write, WriteCloserModel.close,
    Cache.onClose, hne, h]

/-- Witness for `finalize_oversize`: an 11-byte payload against the
10-byte per-entry cap of the empty sample cache. -/
theorem finalize_oversize_witness :
    ((sampleEmpty.Create).write (List.replicate 11 0)).1.close sampleEmpty "k" 5 =
      (.error .cacheFull, sampleEmpty) :=
  finalize_oversize sampleEmpty "k" (List.replicate 11 0) 5 (by decide)

/-- C3: for a payload `p` with `0 < len p ≤ maxCacheEntrySize`, after
`Create k` / write `p` / successful finalize at commit time `now`, an
`Open k t` with `t ≤ now` returns no error and yields exactly `p`. -/
theorem round_trip (c : Cache) (k : String) (p : List UInt8) (t now n2 : Int)
    (h1 : 0 < p.length) (h2 : p.length ≤ c.maxCacheEntrySize) (h3 : t ≤ now) :
    (((c.Create).write p).1.close c k now).1 = .ok () ∧
    (((((c.Create).write p).1.close c k now).2).Open k t n2).1 = .ok p := by
  have hne : p.length ≠ 0 := by omega
  have hle : ¬ c.maxCacheEntrySize < p.length := not_lt.mpr h2
  have hl := lookup_insert_self c.entries k { buf := p, lastAccessed := now }
  constructor
  · simp [Cache.Create, WriteCloserModel.write, WriteCloserModel.close,
      Cache.onClose, hne, hle]
  · simp [Cache.Create, WriteCloserModel.write, WriteCloserModel.close,
      Cache.onClose, hne, hle, Cache.Open, hl, not_lt.mpr h3]

/-- Witness for `round_trip`: the two-byte payload `[7, 8]` under key `a`
committed at time 5 and read back at reference time 4. -/
theorem round_trip_witness :
    (((sampleEmpty.Create).write [7, 8]).1.close sampleEmpty "a" 5).1 = .ok () ∧
    (((((sampleEmpty.Create).write [7, 8]).1.close sampleEmpty "a" 5).2).Open
        "a" 4 6).1 = .ok [7, 8] :=
  round_trip sampleEmpty "a" [7, 8] 4 5 6 (by decide) (by decide) (by decide)

/-- C4: when the stored entry's `lastAccessed` is strictly before the
caller's reference time, `Open` deletes the entry and reports a miss, and
the next `Open` under any reference time is also a miss; otherwise `Open`
succeeds and refreshes `lastAccessed` to the current time. -/
theorem open_freshness (c : Cache) (k : String) (b : Buffer)
    (atime now t2 n3 : Int) (h : lookupEntry c.entries k = some b) :
    (b.lastAccessed < atime →
      c.Open k atime now = (.error .keyNotFoundInCache, c.delete k, []) ∧
      lookupEntry (c.delete k).entries k = none ∧
      ((c.delete k).Open k t2 n3).1 = .error .keyNotFoundInCache) ∧
    (¬ b.lastAccessed < atime →
      (c.Open k atime now).1 = .ok b.buf ∧
      (c.Open k atime now).2.1 = { c with entries := touchEntry c.entries k now } ∧
      lookupEntry ((c.Open k atime now).2.1).entries k =
        some { buf := b.buf, lastAccessed := now }) := by
  constructor
  · intro hst
    refine ⟨by simp [Cache.Open, h, hst], lookup_delete_self c k, ?_⟩
    simp [Cache.Open, lookup_delete_self c k]
  · intro hst
    refine ⟨by simp [Cache.Open, h, hst], by simp [Cache.Open, h, hst], ?_⟩
    simp [Cache.Open, h, hst]
    exact lookup_touch_self c.entries k now b h

/-- C9: on a sweep at time `now`, `gc` deletes exactly the entries whose
idle time exceeds a positive `expiry` — removing them from the mapping,
subtracting their lengths from `currentSize` (uint64 arithmetic, one
subtraction per evicted entry), incrementing `totalEvicted` by their
count — leaves every other entry untouched in place, and the
eviction-callback key list it hands to `OnEviction` after the lock is
released holds each evicted key exactly once; an entry whose idle time is
within `expiry` is never evicted. -/
theorem gc_sweep (c : Cache) (now : Int) (kv : String × Buffer)
    (hnd : NoDupKeys c.entries) :
    (c.gc now).1.entries =
        c.entries.filter (fun e => !(expiredAt c.expiry now e.2.lastAccessed)) ∧
    (c.gc now).2 =
        (c.entries.filter
          (fun e => expiredAt c.expiry now e.2.lastAccessed)).map Prod.fst ∧
    (c.gc now).2.Nodup ∧
    (c.gc now).1.currentSize =
        (c.entries.filter (fun e => expiredAt c.expiry now e.2.lastAccessed)).foldl
          (fun s e => usub s e.2.buf.length) c.currentSize ∧
    (c.gc now).1.totalEvicted =
        c.totalEvicted +
          (c.entries.filter
            (fun e => expiredAt c.expiry now e.2.lastAccessed)).length ∧
    (kv ∈ c.entries → now - kv.2.lastAccessed ≤ c.expiry →
      kv ∈ (c.gc now).1.entries) := by
  obtain ⟨h1, h2, h3, h4, _, _, _⟩ := gc_spec c now hnd
  refine ⟨h1, h2, ?_, h3, h4, ?_⟩
  · rw [h2]
    exact hnd.sublist ((List.filter_sublist _).map Prod.fst)
  · intro hmem hfresh
    rw [h1]
    refine List.mem_filter.mpr ⟨hmem, ?_⟩
    simp only [expiredAt, Bool.not_eq_true', Bool.and_eq_false_iff,
      decide_eq_false_iff_not, not_lt]
    omega

/-- Witness for `gc_sweep` on the expiry-20 sample cache swept at time
100: the stale entry `old` is evicted, the fresh entry `live` survives. -/
theorem gc_sweep_witness :
    (sampleExp.gc 100).1.entries =
        sampleExp.entries.filter
          (fun e => !(expiredAt sampleExp.expiry 100 e.2.lastAccessed)) ∧
    (sampleExp.gc 100).2 =
        (sampleExp.entries.filter
          (fun e => expiredAt sampleExp.expiry 100 e.2.lastAccessed)).map Prod.fst ∧
    (sampleExp.gc 100).2.Nodup ∧
    (sampleExp.gc 100).1.currentSize =
        (sampleExp.entries.filter
            (fun e => expiredAt sampleExp.expiry 100 e.2.lastAccessed)).foldl
          (fun s e => usub s e.2.buf.length) sampleExp.currentSize ∧
    (sampleExp.gc 100).1.totalEvicted =
        sampleExp.totalEvicted +
          (sampleExp.entries.filter
            (fun e => expiredAt sampleExp.expiry 100 e.2.lastAccessed)).length ∧
    (("live", ({ buf := [3, 4, 5], lastAccessed := 90 } : Buffer)) ∈ sampleExp.entries →
      (100 : Int) - (90 : Int) ≤ sampleExp.expiry →
      ("live", ({ buf := [3, 4, 5], lastAccessed := 90 } : Buffer)) ∈
        (sampleExp.gc 100).1.entries) :=
  gc_sweep sampleExp 100 ("live", { buf := [3, 4, 5], lastAccessed := 90 })
    (by decide)

/-- C2 counterexample: on the code as written the claim fails in both
directions. `Delete` on an absent key still invokes the callback (callback
with no deletion), and the freshness-driven delete inside `Open` performs
a deletion with no callback. -/
theorem eviction_callback_counterexample :
    ((sampleEmpty.Delete "ghost").2 = ["ghost"] ∧
      lookupEntry sampleEmpty.entries "ghost" = none ∧
      (sampleEmpty.Delete "ghost").1 = sampleEmpty) ∧
    ((sampleOne.Open "a" 60 70).2.2 = [] ∧
      (sampleOne.Open "a" 60 70).2.1.entries = []) :=
  ⟨⟨rfl, rfl, rfl⟩, ⟨rfl, rfl⟩⟩

/-- C2 (amended): when the callback is set, `Delete k` invokes it exactly
once with `k` — whether or not an entry was present — after releasing the
lock; a janitor sweep invokes it exactly once per evicted key after
releasing the lock; and the freshness-driven delete inside `Open` never
invokes it. -/
theorem eviction_callback_amended (c : Cache) (k : String)
    (atime now gnow : Int) (hnd : NoDupKeys c.entries) :
    (c.Delete k).2 = [k] ∧
    (c.Open k atime now).2.2 = [] ∧
    (c.gc gnow).2 =
      (c.entries.filter
        (fun e => expiredAt c.expiry gnow e.2.lastAccessed)).map Prod.fst ∧
    (c.gc gnow).2.Nodup := by
  obtain ⟨_, h2, _, _, _, _, _⟩ := gc_spec c gnow hnd
  refine ⟨rfl, open_callbacks_nil c k atime now, h2, ?_⟩
  rw [h2]
  exact hnd.sublist ((List.filter_sublist _).map Prod.fst)

/-- Witness for `eviction_callback_amended` on the expiry-20 sample
cache. -/
theorem eviction_callback_amended_witness :
    (sampleExp.Delete "old").2 = ["old"] ∧
    (sampleExp.Open "old" 5 6).2.2 = [] ∧
    (sampleExp.gc 100).2 =
      (sampleExp.entries.filter
        (fun e => expiredAt sampleExp.expiry 100 e.2.lastAccessed)).map Prod.fst ∧
    (sampleExp.gc 100).2.Nodup :=
  eviction_callback_amended sampleExp "old" 5 6 100 (by decide)

/-- Witness for `open_freshness` on the one-entry sample cache: the entry
was last accessed at 50; reference time 60 invalidates it, reference time
40 reads it back and refreshes `lastAccessed` to 70. -/
theorem open_freshness_witness :
    (sampleOne.Open "a" 60 70 =
        (.error .keyNotFoundInCache, sampleOne.delete "a", []) ∧
      lookupEntry (sampleOne.delete "a").entries "a" = none ∧
      ((sampleOne.delete "a").Open "a" 0 0).1 = .error .keyNotFoundInCache) ∧
    ((sampleOne.Open "a" 40 70).1 = .ok [1, 2, 3] ∧
      (sampleOne.Open "a" 40 70).2.1 =
        { sampleOne with entries := touchEntry sampleOne.entries "a" 70 } ∧
      lookupEntry ((sampleOne.Open "a" 40 70).2.1).entries "a" =
        some { buf := [1, 2, 3], lastAccessed := 70 }) :=
  ⟨(open_freshness sampleOne "a" { buf := [1, 2, 3], lastAccessed := 50 }
      60 70 0 0 (by decide)).1 (by decide),
    (open_freshness sampleOne "a" { buf := [1, 2, 3], lastAccessed := 50 }
      40 70 0 0 (by decide)).2 (by decide)⟩

/-- C1 counterexample: a second commit under the same key replaces the
entry without subtracting the replaced length, so after committing the
one-byte payloads `[1]` and then `[2]` under key `a` on a freshly
constructed cache, `currentSize` is 2 while the stored entries sum to 1. -/
theorem size_accounting_counterexample :
    New 100 0 = .ok sampleEmpty ∧
    ((((sampleEmpty.onClose "a" [1] 0).2).onClose "a" [2] 0).2).currentSize = 2 ∧
    sumLens ((((sampleEmpty.onClose "a" [1] 0).2).onClose "a" [2] 0).2).entries = 1 :=
  ⟨rfl, rfl, rfl⟩

/-- C1 (amended): along every operation sequence from a freshly
constructed cache in which each commit targets a key with no entry
currently stored (deletes, freshness-driven deletes, reads and janitor
sweeps unrestricted), `currentSize` equals the sum of the byte lengths of
the currently stored entries reduced modulo `2 ^ 64` (`currentSize` is a
uint64), hence equals the sum exactly whenever the sum fits in a uint64. -/
theorem size_accounting (m : Nat) (x : Int) (c0 c : Cache)
    (h0 : New m x = .ok c0) (hr : Relation.ReflTransGen Step c0 c) :
    c.currentSize = sumLens c.entries % U64 ∧
    (sumLens c.entries < U64 → c.currentSize = sumLens c.entries) := by
  have hInv0 : Inv c0 := by
    by_cases hm : m = 0
    · simp [New, hm] at h0
    · simp [New, hm] at h0
      subst h0
      exact ⟨by simp [NoDupKeys], by simp [sumLens]⟩
  have hInv : Inv c := by
    induction hr with
    | refl => exact hInv0
    | tail _ hstep ih => exact step_inv _ _ hstep ih
  exact ⟨hInv.2, fun hlt => by rw [hInv.2, Nat.mod_eq_of_lt hlt]⟩

/-- Witness for `size_accounting`: a single no-replace commit step from
the freshly constructed `New 100 0` cache. -/
theorem size_accounting_witness :
    ((sampleEmpty.onClose "a" [1, 2] 5).2).currentSize =
      sumLens ((sampleEmpty.onClose "a" [1, 2] 5).2).entries % U64 :=
  (size_accounting 100 0 sampleEmpty ((sampleEmpty.onClose "a" [1, 2] 5).2) rfl
    (Relation.ReflTransGen.single (Step.commit sampleEmpty "a" [1, 2] 5 rfl))).1

/-- C8: no operation ever produces the reserved excess-write error
`ErrExcessData`: construction fails only with the invalid-configuration
error, finalize fails only with the cache-full error, open fails only
with the not-found error, and a write on the sink reports no error at
all (`Delete` and `gc` return no error by type). -/
theorem no_excess_data_error (m : Nat) (x : Int) (c : Cache) (k : String)
    (p : List UInt8) (atime now : Int) (w : WriteCloserModel) :
    New m x ≠ .error .excessData ∧
    (c.onClose k p now).1 ≠ .error .excessData ∧
    (w.close c k now).1 ≠ .error .excessData ∧
    (c.Open k atime now).1 ≠ .error .excessData ∧
    (w.write p).2.2 = none := by
  have honc : ∀ d : List UInt8, (c.onClose k d now).1 ≠ .error .excessData := by
    intro d
    unfold Cache.onClose
    split_ifs <;> simp
  refine ⟨?_, honc p, honc w.data, ?_, rfl⟩
  · unfold New
    split_ifs <;> simp
  · unfold Cache.Open
    cases lookupEntry c.entries k with
    | none => simp
    | some b =>
      dsimp only
      split <;> simp

/-- Witness for `no_excess_data_error` at concrete inputs. -/
theorem no_excess_data_error_witness :
    New 0 0 ≠ .error .excessData ∧
    (sampleEmpty.onClose "k" [1] 0).1 ≠ .error .excessData ∧
    ((WriteCloserModel.mk []).close sampleEmpty "k" 0).1 ≠ .error .excessData ∧
    (sampleEmpty.Open "k" 0 0).1 ≠ .error .excessData ∧
    ((WriteCloserModel.mk []).write [1]).2.2 = none :=
  no_excess_data_error 0 0 sampleEmpty "k" [1] 0 0 (WriteCloserModel.mk [])

end Objcache
